import Mathlib

/-!
Verification development for the credit-app transcript calculator
(src/credit-app/app.py).  The Python functions `normalize_text`,
`make_unique_columns`, `parse_credit_and_gpa`, `is_grades_table`,
`calculate_total_credits` and the result display in `main` are embedded
shallowly below.  Cells are modelled as Lean strings (the pipeline feeds
`calculate_total_credits` only DataFrames built from normalized string
cells, so `pd.notna` is always true and `str(cell)` is the cell itself).
Python float credit values are modelled as rationals; all inputs carry
short decimal literals for which float and rational comparison agree.
-/

/-- Python whitespace class for the regexes and `str.strip` used in app.py
(ASCII whitespace; the inputs the app feeds here contain no exotic
Unicode whitespace). -/
def pyIsSpace (c : Char) : Bool :=
  c = ' ' || c = '\t' || c = '\n' || c = '\r' || c = Char.ofNat 11 || c = Char.ofNat 12

/-- Python `str.lower` on one character, restricted to ASCII (CJK text is
unaffected by `lower`, matching Python). -/
def pyToLower (c : Char) : Char :=
  if 'A' ≤ c ∧ c ≤ 'Z' then Char.ofNat (c.toNat + 32) else c

/-- Python `str.upper` on one character, restricted to ASCII. -/
def pyToUpper (c : Char) : Char :=
  if 'a' ≤ c ∧ c ≤ 'z' then Char.ofNat (c.toNat - 32) else c

def pyLowerStr (s : String) : String := ⟨s.data.map pyToLower⟩

def pyUpperStr (s : String) : String := ⟨s.data.map pyToUpper⟩

/-- Collapse adjacent space characters to one (the list already has every
whitespace character mapped to a space). -/
def collapseRuns : List Char → List Char
  | [] => []
  | [c] => [c]
  | a :: b :: rest =>
    if a = ' ' && b = ' ' then collapseRuns (b :: rest)
    else a :: collapseRuns (b :: rest)

def stripEnds (l : List Char) : List Char :=
  ((l.dropWhile (· = ' ')).reverse.dropWhile (· = ' ')).reverse

/-- app.py `normalize_text` on a string cell:
`re.sub(r'\s+', ' ', text).strip()`. -/
def normalizeText (s : String) : String :=
  ⟨stripEnds (collapseRuns (s.data.map fun c => if pyIsSpace c then ' ' else c))⟩

def isAsciiDigit (c : Char) : Bool := '0' ≤ c && c ≤ '9'

/-- Python `str.isdigit` (ASCII digits; the app's cells never contain
non-ASCII digits). -/
def pyIsDigit (s : String) : Bool :=
  !s.data.isEmpty && s.data.all isAsciiDigit

/-- A character of the CJK unified range used by `[一-龥]` in app.py. -/
def isCJK (c : Char) : Bool :=
  decide (0x4e00 ≤ c.toNat ∧ c.toNat ≤ 0x9fa5)

def hasCJK (s : String) : Bool := s.data.any isCJK

/-- Substring containment, Python `k in s`. -/
def containsSub (pat : List Char) : List Char → Bool
  | [] => pat.isEmpty
  | c :: cs => List.isPrefixOf pat (c :: cs) || containsSub pat cs

def strContains (s pat : String) : Bool := containsSub pat.data s.data

/-- The pass/exempt markers recognized throughout app.py. -/
def passMarkers : List String := ["通過", "抵免", "pass", "exempt"]

/- ### Decimal number parsing (`float` of a regex-matched group) -/

def digitVal (c : Char) : ℕ := c.toNat - 48

def digitsToNat (l : List Char) : ℕ := l.foldl (fun a c => 10 * a + digitVal c) 0

/-- Value of an integer part `ip` and fractional digit part `fp`, as Python
`float` produces from the matched text (modelled exactly as a rational). -/
def decimalVal (ip fp : List Char) : ℚ :=
  mkRat (digitsToNat ip * 10 ^ fp.length + digitsToNat fp) (10 ^ fp.length)

/- ### The regex fragments used by `parse_credit_and_gpa` -/

def isGradeLetterChar (c : Char) : Bool :=
  c = 'A' || c = 'B' || c = 'C' || c = 'D' || c = 'E' || c = 'F' ||
  c = 'a' || c = 'b' || c = 'c' || c = 'd' || c = 'e' || c = 'f'

def isSignChar (c : Char) : Bool := c = '+' || c = '-'

/-- Read the greedy `\d+(\.\d+)?` group starting at the head of `l`
(assumed to start with a digit) and return its value and the rest. -/
def numberAt (l : List Char) : ℚ × List Char :=
  let ip := l.takeWhile isAsciiDigit
  let r1 := l.dropWhile isAsciiDigit
  match r1 with
  | '.' :: r2 =>
    let fp := r2.takeWhile isAsciiDigit
    if fp.isEmpty then (decimalVal ip [], r1)
    else (decimalVal ip fp, r2.dropWhile isAsciiDigit)
  | _ => (decimalVal ip [], r1)

/-- `re.match(r'([A-Fa-f][+\-]?)\s*(\d+(\.\d+)?)', t)`: grade letter with
optional sign, optional whitespace, then a number.  Returns the two groups. -/
def matchGpaCredit (l : List Char) : Option (List Char × ℚ) :=
  match l with
  | [] => none
  | c :: rest =>
    if isGradeLetterChar c then
      let gr : List Char × List Char :=
        match rest with
        | s :: r => if isSignChar s then ([c, s], r) else ([c], rest)
        | [] => ([c], [])
      let r2 := gr.2.dropWhile pyIsSpace
      if (r2.takeWhile isAsciiDigit).isEmpty then none
      else some (gr.1, (numberAt r2).1)
    else none

/-- `re.match(r'(\d+(\.\d+)?)\s*([A-Fa-f][+\-]?)', t)`: number, optional
whitespace, then grade letter with optional sign. -/
def matchCreditGpa (l : List Char) : Option (ℚ × List Char) :=
  if (l.takeWhile isAsciiDigit).isEmpty then none
  else
    let n := numberAt l
    let r2 := n.2.dropWhile pyIsSpace
    match r2 with
    | c :: rest =>
      if isGradeLetterChar c then
        match rest with
        | s :: _ => if isSignChar s then some (n.1, [c, s]) else some (n.1, [c])
        | [] => some (n.1, [c])
      else none
    | [] => none

/-- `re.search(r'(\d+(\.\d+)?)', t)`: the first number anywhere in `t`. -/
def searchNumber : List Char → Option ℚ
  | [] => none
  | c :: rest =>
    if isAsciiDigit c then some (numberAt (c :: rest)).1
    else searchNumber rest

/-- `re.search(r'([A-Fa-f][+\-]?)', t)`: the first grade letter anywhere,
with an optional sign after it. -/
def searchGpa : List Char → Option (List Char)
  | [] => none
  | c :: rest =>
    if isGradeLetterChar c then
      match rest with
      | s :: _ => if isSignChar s then some [c, s] else some [c]
      | [] => some [c]
    else searchGpa rest

/-- app.py `parse_credit_and_gpa`: split a cell into (credit, GPA token).
The pass/exempt markers are checked first; then the pattern
grade-then-number, then number-then-grade, then number only, then grade
only; a credit is kept only when `0 < credit <= 5`. -/
def parseCreditAndGpa (s : String) : ℚ × String :=
  let t := normalizeText s
  if pyLowerStr t ∈ passMarkers then (0, t)
  else
    let s1 : Option (ℚ × String) :=
      match matchGpaCredit t.data with
      | some gc => if 0 < gc.2 ∧ gc.2 ≤ 5 then some (gc.2, pyUpperStr ⟨gc.1⟩) else none
      | none => none
    match s1 with
    | some r => r
    | none =>
      let s2 : Option (ℚ × String) :=
        match matchCreditGpa t.data with
        | some cg => if 0 < cg.1 ∧ cg.1 ≤ 5 then some (cg.1, pyUpperStr ⟨cg.2⟩) else none
        | none => none
      match s2 with
      | some r => r
      | none =>
        let s3 : Option (ℚ × String) :=
          match searchNumber t.data with
          | some c => if 0 < c ∧ c ≤ 5 then some (c, "") else none
          | none => none
        match s3 with
        | some r => r
        | none =>
          match searchGpa t.data with
          | some g => (0, pyUpperStr ⟨g⟩)
          | none => (0, "")

/- ### Decimal printing of naturals (Python `str(int)` inside f-strings) -/

def digitChar10 : ℕ → Char
  | 0 => '0' | 1 => '1' | 2 => '2' | 3 => '3' | 4 => '4'
  | 5 => '5' | 6 => '6' | 7 => '7' | 8 => '8' | _ => '9'

/-- Least-significant-first decimal digits, with enough fuel. -/
def toDigitsRev : ℕ → ℕ → List ℕ
  | 0, _ => []
  | f + 1, n => if n = 0 then [] else n % 10 :: toDigitsRev f (n / 10)

def ofDigitsRev : List ℕ → ℕ
  | [] => 0
  | d :: ds => d + 10 * ofDigitsRev ds

/-- Decimal string of a natural number, as Python `str` renders it. -/
def natStr (n : ℕ) : String :=
  if n = 0 then "0" else ⟨((toDigitsRev (n + 1) n).map digitChar10).reverse⟩

/- ### app.py `make_unique_columns` -/

/-- Scan candidate indices `i, i+1, ...` (at most `fuel` of them) and return
the first index whose candidate name is not yet in `u`; models the
`while candidate in unique_columns: idx += 1` loops of app.py (with
`fuel > u.length` the scan always succeeds, by pigeonhole). -/
def scanFree (mk : ℕ → String) : ℕ → ℕ → List String → ℕ
  | 0, i, _ => i
  | f + 1, i, u => if mk i ∈ u then scanFree mk f (i + 1) u else i

/-- Lookup in the `seen` counter map (`collections.defaultdict(int)`). -/
def seenGet (m : List (String × ℕ)) (k : String) : ℕ :=
  ((m.find? fun p => p.1 = k).map Prod.snd).getD 0

/-- Assignment `seen[name] = counter` on the insertion-ordered dict. -/
def seenSet (m : List (String × ℕ)) (k : String) (v : ℕ) : List (String × ℕ) :=
  if m.any (fun p => p.1 = k) then
    m.map fun p => if p.1 = k then (k, v) else p
  else m ++ [(k, v)]

def columnCand (i : ℕ) : String := "Column_" ++ natStr i

def suffixCand (name : String) (i : ℕ) : String := name ++ "_" ++ natStr i

/-- The base name chosen for a column: the normalized header, or a fresh
`Column_i` when that is empty or shorter than two characters. -/
def chooseName (u : List String) (col : String) : String :=
  let cleaned := normalizeText col
  if cleaned = "" ∨ cleaned.length < 2 then
    columnCand (scanFree columnCand (u.length + 1) 1 u)
  else cleaned

/-- One iteration of the `for col in columns_list` loop of
`make_unique_columns`: state is (seen map, unique list so far). -/
def makeUniqueStep (st : List (String × ℕ) × List String) (col : String) :
    List (String × ℕ) × List String :=
  let name := chooseName st.2 col
  if name ∈ st.2 then
    let k := scanFree (suffixCand name) (st.2.length + 1) (seenGet st.1 name + 1) st.2
    (seenSet st.1 name k, st.2 ++ [suffixCand name k])
  else
    (seenSet st.1 name (seenGet st.1 name), st.2 ++ [name])

/-- app.py `make_unique_columns` (a `None` column name enters as `""`,
since `normalize_text(None) = ""`). -/
def makeUnique (cols : List String) : List String :=
  (cols.foldl makeUniqueStep ([], [])).2

/- ### DataFrames and app.py `is_grades_table` -/

/-- An extracted table: column names and rows of string cells.  The app
builds every DataFrame it classifies from rows of normalized strings, so
cells are strings and `pd.notna` is always true. -/
structure DataF where
  cols : List String
  rows : List (List String)
deriving DecidableEq

/-- `re.sub(r'\s+', '', col).lower()`, the normalized header key. -/
def normKey (s : String) : String :=
  ⟨(s.data.filter fun c => !pyIsSpace c).map pyToLower⟩

def creditKeywordsIGT : List String := ["學分", "credits", "credit", "學分數"]
def gpaKeywordsIGT : List String := ["gpa", "成績", "grade", "gpa(數值)"]
def subjectKeywordsIGT : List String :=
  ["科目名稱", "課程名稱", "coursename", "subjectname", "科目", "課程"]
def yearKeywordsIGT : List String := ["學年", "year"]
def semesterKeywordsIGT : List String := ["學期", "semester"]

/-- Does some normalized column-name key contain one of the keywords. -/
def hasKeywordCol (kws : List String) (cols : List String) : Bool :=
  cols.any fun col => kws.any fun k => strContains (normKey col) k

/-- Full-string match of `^[A-Fa-f][+\-]?$`. -/
def isGradeTokenFull (s : String) : Bool :=
  match s.data with
  | [c] => isGradeLetterChar c
  | [c, d] => isGradeLetterChar c && isSignChar d
  | _ => false

def subjectKwFilter : List String := ["通過", "抵免", "pass", "exempt", "未知科目"]

/-- Content predicate for a subject-like cell (shared verbatim by
`is_grades_table` and `calculate_total_credits`). -/
def subjectLikeCell (s : String) : Bool :=
  hasCJK s && decide (2 ≤ s.data.length) && !pyIsDigit s &&
  !isGradeTokenFull s && !(pyLowerStr s ∈ subjectKwFilter)

/-- Content predicate for a credit-or-GPA-like cell in `is_grades_table`. -/
def creditGpaLikeCell (s : String) : Bool :=
  let cg := parseCreditAndGpa s
  decide (0 < cg.1 ∧ cg.1 ≤ 5) || (!(cg.2 = "") && isGradeTokenFull cg.2) ||
  (pyLowerStr s ∈ passMarkers)

def yearLikeCell (s : String) : Bool :=
  pyIsDigit s && (s.data.length = 3 || s.data.length = 4)

def semesterTokens : List String :=
  ["上", "下", "春", "夏", "秋", "冬", "1", "2", "3",
   "春季", "夏季", "秋季", "冬季", "spring", "summer", "fall", "winter"]

def semesterLikeCell (s : String) : Bool := pyLowerStr s ∈ semesterTokens

/-- The first up-to-20 rows of one column, each cell normalized. -/
def sampleColumn (df : DataF) (ci : ℕ) : List String :=
  (df.rows.take 20).map fun r => normalizeText (r.getD ci "")

def countP (l : List String) (p : String → Bool) : ℕ := (l.filter p).length

/-- Column indices whose sample passes the predicate at ratio
`pnum / pden` (compared exactly, as the Python float comparison does on
the small sample sizes involved). -/
def potentialCols (df : DataF) (p : String → Bool) (pnum pden : ℕ) : List ℕ :=
  (List.range df.cols.length).filter fun ci =>
    let sample := sampleColumn df ci
    !sample.isEmpty && decide (pden * countP sample p ≥ pnum * sample.length)

/-- The header phase of `is_grades_table`: all of subject, year, semester
and one of credit/GPA appear as header keywords. -/
def headerPathOK (cols : List String) : Bool :=
  hasKeywordCol subjectKeywordsIGT cols &&
  (hasKeywordCol creditKeywordsIGT cols || hasKeywordCol gpaKeywordsIGT cols) &&
  hasKeywordCol yearKeywordsIGT cols && hasKeywordCol semesterKeywordsIGT cols

/-- The content phase of `is_grades_table`: a subject-like, a
credit/GPA-like, a year-like and a semester-like column are all detected. -/
def contentPathOK (df : DataF) : Bool :=
  !(potentialCols df subjectLikeCell 2 5).isEmpty &&
  !(potentialCols df creditGpaLikeCell 2 5).isEmpty &&
  !(potentialCols df yearLikeCell 3 5).isEmpty &&
  !(potentialCols df semesterLikeCell 3 5).isEmpty

/-- app.py `is_grades_table` (the function also rewrites `df.columns`
through `make_unique_columns`; classification happens on those columns). -/
def isGradesTable (df0 : DataF) : Bool :=
  if df0.rows.isEmpty || df0.cols.length < 3 then false
  else
    let cols := makeUnique df0.cols
    if headerPathOK cols then true
    else contentPathOK ⟨cols, df0.rows⟩

/- ### app.py `calculate_total_credits` -/

/-- One logical course record produced by the aggregator (the dict the
Python code appends, with keys 學年度/學期/科目名稱/學分/GPA/來源表格). -/
structure CourseRec where
  acadYear : String
  semester : String
  courseName : String
  credit : ℚ
  gpa : String
  srcTable : ℕ
deriving DecidableEq

def creditKeywordsCalc : List String :=
  ["學分", "學分數", "學分(GPA)", "學 分", "Credits", "Credit", "學分數(學分)", "總學分"]
def subjectKeywordsCalc : List String :=
  ["科目名稱", "課程名稱", "Course Name", "Subject Name", "科目", "課程"]
def gpaKeywordsCalc : List String := ["GPA", "成績", "Grade", "gpa(數值)"]
def yearKeywordsCalc : List String := ["學年", "year", "學 年"]
def semesterKeywordsCalc : List String := ["學期", "semester", "學 期"]

def failingGrades : List String :=
  ["D", "D-", "E", "F", "X", "不通過", "未通過", "不及格"]

/-- The insertion-ordered Python dict comprehension
`{re.sub(r'\s+', '', c).lower(): c for c in df.columns}`: a later column
with the same normalized key overwrites the value but keeps the position. -/
def normColMap (cols : List String) : List (String × String) :=
  cols.foldl
    (fun m col =>
      let k := normKey col
      if m.any (fun p => p.1 = k) then m.map fun p => if p.1 = k then (k, col) else p
      else m ++ [(k, col)])
    []

/-- The header lookup loops of `calculate_total_credits`: for the first
keyword contained in some normalized key, the first such entry wins. -/
def findColByKeywords : List String → List (String × String) → Option String
  | [], _ => none
  | k :: ks, m =>
    match m.find? (fun p => strContains p.1 k) with
    | some p => some p.2
    | none => findColByKeywords ks m

def idxOfCol (cols : List String) (c : String) : ℕ := cols.findIdx (fun x => x == c)

/-- Content predicate for a credit-like cell in `calculate_total_credits`. -/
def creditLikeCalc (s : String) : Bool :=
  decide (0 < (parseCreditAndGpa s).1 ∧ (parseCreditAndGpa s).1 ≤ 5)

/-- Prefix match of `^[A-Fa-f][+\-]` (note: the pattern in the code has no
optional sign and no anchor at the end, so a bare letter does not match). -/
def gpaPrefixSigned (s : String) : Bool :=
  match s.data with
  | c :: d :: _ => isGradeLetterChar c && isSignChar d
  | _ => false

/-- Content predicate for a GPA-like cell in `calculate_total_credits`. -/
def gpaLikeCalc (s : String) : Bool :=
  gpaPrefixSigned s || (pyIsDigit s && decide (s.data.length ≤ 3)) ||
  (pyLowerStr s ∈ passMarkers)

/-- `sorted(candidates after the anchor)[0]`, else the first potential
column, as in the positional fallback of `calculate_total_credits`
(potential lists are already in column order). -/
def pickAfter (pot : List ℕ) (anchor : Option ℕ) : Option ℕ :=
  match pot with
  | [] => none
  | p0 :: _ =>
    match anchor with
    | some ai =>
      match pot.filter (fun i => ai < i) with
      | [] => some p0
      | c :: _ => some c
    | none => some p0

/-- The five resolved column indices of one table. -/
structure FoundCols where
  year : Option ℕ
  sem : Option ℕ
  subj : Option ℕ
  cred : Option ℕ
  gpa : Option ℕ
deriving DecidableEq

/-- Column-role resolution of `calculate_total_credits` on a table whose
columns have already been made unique: headers first, then content-based
potential columns ordered by the year → semester → subject → credit → GPA
positional chain. -/
def findCols (df : DataF) : FoundCols :=
  let cols := df.cols
  let m := normColMap cols
  let credH := (findColByKeywords creditKeywordsCalc m).map (idxOfCol cols)
  let subjH := (findColByKeywords subjectKeywordsCalc m).map (idxOfCol cols)
  let gpaH := (findColByKeywords gpaKeywordsCalc m).map (idxOfCol cols)
  let yearH := (findColByKeywords yearKeywordsCalc m).map (idxOfCol cols)
  let semH := (findColByKeywords semesterKeywordsCalc m).map (idxOfCol cols)
  let potC := potentialCols df creditLikeCalc 2 5
  let potS := potentialCols df subjectLikeCell 2 5
  let potG := potentialCols df gpaLikeCalc 2 5
  let potY := potentialCols df yearLikeCell 3 5
  let potSm := potentialCols df semesterLikeCell 3 5
  let fYear := match yearH with
    | some i => some i
    | none => pickAfter potY none
  let fSem := match semH with
    | some i => some i
    | none => pickAfter potSm fYear
  let fSubj := match subjH with
    | some i => some i
    | none => pickAfter potS fSem
  let fCred := match credH with
    | some i => some i
    | none => pickAfter potC fSubj
  let fGpa := match gpaH with
    | some i => some i
    | none => pickAfter potG fCred
  ⟨fYear, fSem, fSubj, fCred, fGpa⟩

/-- `re.sub(r'[+\-]', '', g).upper()` and the failing-grade test of the
row loop: failing letter grades, or a numeric grade below 60. -/
def dotSplitVal (l : List Char) : Option ℚ :=
  let a := l.takeWhile isAsciiDigit
  match l.dropWhile isAsciiDigit with
  | [] => if a.isEmpty then none else some (decimalVal a [])
  | '.' :: rest =>
    if rest.all isAsciiDigit && !(a.isEmpty && rest.isEmpty) then some (decimalVal a rest)
    else none
  | _ => none

def isFailingGpa (g : String) : Bool :=
  if g = "" then false
  else
    let clean := pyUpperStr ⟨g.data.filter fun c => !isSignChar c⟩
    clean ∈ failingGrades ||
    (pyIsDigit clean && decide (decimalVal clean.data [] < 60)) ||
    (match dotSplitVal clean.data with
     | some v => decide (v < 60)
     | none => false)

def adminKw : List String := ["體育室", "本表僅供查詢", "學號", "勞作"]

def kwFilterMain : List String :=
  ["學年度", "學期", "選課代號", "科目名稱", "學分", "GPA", "本表", "備註"]

def kwFilterAdj : List String := ["學年度", "學期", "選課代號", "科目名稱", "學分", "GPA"]

/-- The subject-name acceptance test of the row loop (`checkMarkers` is
true for the subject column itself, false for the adjacent columns). -/
def nameOK (t : String) (kws : List String) (checkMarkers : Bool) : Bool :=
  decide (1 ≤ t.data.length) && hasCJK t && !pyIsDigit t && !isGradeTokenFull t &&
  (!checkMarkers || !(pyLowerStr t ∈ subjectKwFilter)) &&
  !(kws.any fun k => strContains t k)

/-- Course-name extraction: the subject cell, else the column to the left,
else the column to the right. -/
def courseNameOf (cols : List String) (si : ℕ) (row : List String) : String :=
  let t := normalizeText (row.getD si "")
  if nameOK t kwFilterMain true then t
  else
    let nmL :=
      if 0 < si then
        let tp := normalizeText (row.getD (si - 1) "")
        if nameOK tp kwFilterAdj false then tp else ""
      else ""
    if !(nmL = "") then nmL
    else if si + 1 < cols.length then
      let tn := normalizeText (row.getD (si + 1) "")
      if nameOK tn kwFilterAdj false then tn else ""
    else ""

/-- `re.search(r'(\d{3,4})', t)`: at the first position where at least
three digits start, greedily take up to four. -/
def searchYear : List Char → Option (List Char)
  | [] => none
  | c :: rest =>
    let run := (c :: rest).takeWhile isAsciiDigit
    if 3 ≤ run.length then some (run.take 4)
    else searchYear rest

/-- Case-insensitive `re.search` of the semester alternation: at each
position the first alternative that matches wins; the matched original
text is returned. -/
def searchSem : List Char → Option (List Char)
  | [] => none
  | c :: rest =>
    match semesterTokens.find? (fun alt => List.isPrefixOf alt.data ((c :: rest).map pyToLower)) with
    | some alt => some ((c :: rest).take alt.data.length)
    | none => searchSem rest

def yearOf (t : String) : String :=
  match searchYear t.data with
  | some ds => ⟨ds⟩
  | none => ""

def semOf (t : String) : String :=
  match searchSem t.data with
  | some ds => ⟨ds⟩
  | none => ""

/-- `extracted_credit` of one row: the credit column parse, possibly
backed up by the GPA column when zero, then clamped to 0 above 5. -/
def extractCredit (ci : ℕ) (gi : Option ℕ) (row : List String) : ℚ :=
  let credit1 := (parseCreditAndGpa (row.getD ci "")).1
  let credit2 : ℚ :=
    match gi with
    | some g =>
      let pc := (parseCreditAndGpa (normalizeText (row.getD g ""))).1
      if 0 < pc ∧ credit1 = 0 then pc else credit1
    | none => credit1
  if 5 < credit2 then 0 else credit2

/-- `extracted_gpa` of one row: the GPA column parse wins when non-empty,
else the token found in the credit column. -/
def extractGpa (ci : ℕ) (gi : Option ℕ) (row : List String) : String :=
  let p1 := parseCreditAndGpa (row.getD ci "")
  let gpa1 := if !(p1.2 = "") then p1.2 else ""
  match gi with
  | some g =>
    let pg := (parseCreditAndGpa (normalizeText (row.getD g ""))).2
    if !(pg = "") then pyUpperStr pg else gpa1
  | none => gpa1

/-- `is_passed_or_exempt_grade`: the raw GPA or credit cell text equals a
pass/exempt marker. -/
def isExemptRow (ci : ℕ) (gi : Option ℕ) (row : List String) : Bool :=
  (match gi with
   | some g => pyLowerStr (normalizeText (row.getD g "")) ∈ passMarkers
   | none => false) ||
  (pyLowerStr (normalizeText (row.getD ci "")) ∈ passMarkers)

/-- The final course name, with the 未知科目 fallback. -/
def extractName (cols : List String) (si : ℕ) (row : List String) : String :=
  if courseNameOf cols si row = "" then "未知科目" else courseNameOf cols si row

/-- Academic year from the year column, else from the first column. -/
def extractYear (cols : List String) (yi : ℕ) (row : List String) : String :=
  let year1 := yearOf (normalizeText (row.getD yi ""))
  if year1 = "" ∧ 0 < cols.length then yearOf (normalizeText (row.getD 0 ""))
  else year1

/-- Semester from the semester column, else (when the year was also
missing) from the first column, else from the second column. -/
def extractSem (cols : List String) (yi smi : ℕ) (row : List String) : String :=
  let year1 := yearOf (normalizeText (row.getD yi ""))
  let sem1 := semOf (normalizeText (row.getD smi ""))
  let sem2 :=
    if year1 = "" ∧ 0 < cols.length ∧ sem1 = "" then semOf (normalizeText (row.getD 0 ""))
    else sem1
  if sem2 = "" ∧ 1 < cols.length then semOf (normalizeText (row.getD 1 ""))
  else sem2

/-- Rows that are entirely empty or contain administrative text are
skipped before any extraction. -/
def isSkipRow (row : List String) : Bool :=
  let rc := row.map normalizeText
  rc.all (fun c => c = "") || rc.any (fun c => adminKw.any fun k => strContains c k)

/-- The record dict the row loop appends. -/
def recOf (cols : List String) (yi smi si ci : ℕ) (gi : Option ℕ) (dfi : ℕ)
    (row : List String) : CourseRec :=
  ⟨extractYear cols yi row, extractSem cols yi smi row, extractName cols si row,
   extractCredit ci gi row, extractGpa ci gi row, dfi + 1⟩

/-- The body of the `for row_idx, row in df.iterrows()` loop: either the
row is skipped (`none`), or it produces a record flagged failing (`true`)
or passed (`false`).  `yi, smi, si, ci` are the resolved year, semester,
subject and credit column indices, `gi` the optional GPA column. -/
def processRow (cols : List String) (yi smi si ci : ℕ) (gi : Option ℕ) (dfi : ℕ)
    (row : List String) : Option (Bool × CourseRec) :=
  if isSkipRow row then none
  else if courseNameOf cols si row = "" ∧ extractCredit ci gi row = 0 ∧
      extractGpa ci gi row = "" ∧ isExemptRow ci gi row = false then none
  else if isFailingGpa (extractGpa ci gi row) then
    some (true, recOf cols yi smi si ci gi dfi row)
  else if 0 < extractCredit ci gi row ∨ isExemptRow ci gi row then
    some (false, recOf cols yi smi si ci gi dfi row)
  else none

/-- Fold step over rows: a failing record goes to the failed list; a
passed record is appended and its credit (when positive) added to the
running total. -/
def rowStep (cols : List String) (yi smi si ci : ℕ) (gi : Option ℕ) (dfi : ℕ)
    (st : ℚ × List CourseRec × List CourseRec) (row : List String) :
    ℚ × List CourseRec × List CourseRec :=
  match processRow cols yi smi si ci gi dfi row with
  | none => st
  | some fr =>
    if fr.1 then (st.1, st.2.1, st.2.2 ++ [fr.2])
    else ((if 0 < fr.2.credit then st.1 + fr.2.credit else st.1),
          st.2.1 ++ [fr.2], st.2.2)

/-- Processing of one table inside `calculate_total_credits`: small or
empty tables are skipped, columns are made unique, roles resolved, and the
rows folded only when credit, subject, year and semester are all found. -/
def procDF (dfi : ℕ) (df0 : DataF) (st : ℚ × List CourseRec × List CourseRec) :
    ℚ × List CourseRec × List CourseRec :=
  if df0.rows.isEmpty || df0.cols.length < 3 then st
  else
    let df : DataF := ⟨makeUnique df0.cols, df0.rows⟩
    let fc := findCols df
    match fc.cred, fc.subj, fc.year, fc.sem with
    | some ci, some si, some yi, some smi =>
      df.rows.foldl (rowStep df.cols yi smi si ci fc.gpa dfi) st
    | _, _, _, _ => st

/-- app.py `calculate_total_credits`: returns
(total credits, passed courses, failed courses). -/
def calculateTotalCredits (dfs : List DataF) : ℚ × List CourseRec × List CourseRec :=
  dfs.enum.foldl (fun st p => procDF p.1 p.2 st) (0, [], [])

/-- The mutation `df.columns = make_unique_columns(df.columns.tolist())`
that `calculate_total_credits` performs on every table it does not skip:
the state of the input list after one run. -/
def updateDF (df : DataF) : DataF :=
  if df.rows.isEmpty || df.cols.length < 3 then df
  else ⟨makeUnique df.cols, df.rows⟩

def updateDFs (dfs : List DataF) : List DataF := dfs.map updateDF

/- ### The result display of `main` (remaining credits) -/

inductive CreditMsg where
  | deficit
  | surplus
  | met
deriving DecidableEq

/-- The three-way result message of `main`: with
`d = target_credits - total_credits`, a positive `d` is reported as the
missing amount, a negative `d` as the surplus `abs(d)`, and zero as 0.00. -/
def creditReport (target total : ℚ) : CreditMsg × ℚ :=
  let d := target - total
  if 0 < d then (CreditMsg.deficit, d)
  else if d < 0 then (CreditMsg.surplus, -d)
  else (CreditMsg.met, 0)

/-- Modelled from the spec: the GradeMapping of spec section 3 (fixed
table from grade tokens to numeric GPA values, with passing floor 1.7 at
C-).  No such mapping exists in src/credit-app/app.py — the code only
keeps the `failing_grades` list — so the conventional 4.3-scale values the
spec alludes to are written out here for comparison. -/
def gradeMappingSpec : List (String × ℚ) :=
  [("A+", mkRat 43 10), ("A", 4), ("A-", mkRat 37 10),
   ("B+", mkRat 33 10), ("B", 3), ("B-", mkRat 27 10),
   ("C+", mkRat 23 10), ("C", 2), ("C-", mkRat 17 10),
   ("D+", mkRat 13 10), ("D", 1), ("D-", mkRat 7 10),
   ("E", 0), ("F", 0)]

/- ### Predicates and concrete tables used by the theorems -/

/-- The normalized-shape invariant: all whitespace is a plain space, no
two adjacent spaces, no leading and no trailing space.  Strings of this
shape are exactly the fixed points of `normalize_text`. -/
def noPairBlanks (l : List Char) : Prop :=
  List.Chain' (fun a b => ¬(a = ' ' ∧ b = ' ')) l

def isNorm (l : List Char) : Prop :=
  (∀ c ∈ l, pyIsSpace c = true → c = ' ') ∧ noPairBlanks l ∧
  l.head? ≠ some ' ' ∧ l.getLast? ≠ some ' '

/-- A column name as `make_unique_columns` outputs it. -/
def goodCol (s : String) : Prop := normalizeText s = s ∧ 2 ≤ s.length

def sumCredits (l : List CourseRec) : ℚ := (l.map CourseRec.credit).sum

/-- The continuation-row table of claim C4: a new-record row followed by
a row whose year/identifier cells are empty and whose course-name cell is
a wrapped continuation. -/
def dfC4 : DataF :=
  ⟨["學年", "學期", "選課代號", "科目名稱", "學分", "成績"],
   [["111", "1", "CS101", "Intro to Computing", "3", "A"],
    ["", "", "", "(continued)", "", ""]]⟩

/-- A table with resolvable CourseName and Credits (and Grade) columns but
no AcademicYear/Semester signal at all. -/
def dfC2 : DataF := ⟨["科目名稱", "學分", "成績"], [["微積分", "3", "A"]]⟩

/-- The end-to-end example table of the spec. -/
def dfE2E : DataF :=
  ⟨["學年度", "學期", "科目名稱", "學分", "GPA"], [["111", "1", "微積分", "3", "A"]]⟩

/- ### End of definitions -/

/- ### Injectivity of the decimal printer -/

theorem toDigitsRev_lt10 : ∀ f n, ∀ d ∈ toDigitsRev f n, d < 10 := by
  intro f
  induction f with
  | zero => intro n d hd; simp [toDigitsRev] at hd
  | succ f ih =>
    intro n d hd
    unfold toDigitsRev at hd
    by_cases h0 : n = 0
    · simp [h0] at hd
    · simp only [h0, if_false, List.mem_cons] at hd
      rcases hd with h | h
      · exact h ▸ Nat.mod_lt _ (by norm_num)
      · exact ih _ d h

theorem ofDigitsRev_toDigitsRev : ∀ f n, n < 10 ^ f → ofDigitsRev (toDigitsRev f n) = n := by
  intro f
  induction f with
  | zero =>
    intro n h
    have hn : n = 0 := by simpa using h
    subst hn; rfl
  | succ f ih =>
    intro n h
    unfold toDigitsRev
    by_cases h0 : n = 0
    · simp [h0, ofDigitsRev]
    · simp only [h0, if_false, ofDigitsRev]
      rw [ih (n / 10) (by
        rw [pow_succ] at h
        exact Nat.div_lt_iff_lt_mul (by norm_num) |>.mpr h)]
      exact Nat.mod_add_div n 10

theorem digitChar10_lt_inj : ∀ a b, a < 10 → b < 10 → digitChar10 a = digitChar10 b → a = b := by
  intro a b ha hb
  interval_cases a <;> interval_cases b <;> decide

theorem map_digitChar10_inj :
    ∀ l1 l2 : List ℕ, (∀ d ∈ l1, d < 10) → (∀ d ∈ l2, d < 10) →
      l1.map digitChar10 = l2.map digitChar10 → l1 = l2 := by
  intro l1
  induction l1 with
  | nil =>
    intro l2 _ _ h
    cases l2 with
    | nil => rfl
    | cons b t => simp at h
  | cons a t ih =>
    intro l2 h1 h2 h
    cases l2 with
    | nil => simp at h
    | cons b t2 =>
      simp only [List.map_cons, List.cons.injEq] at h
      have hab := digitChar10_lt_inj a b (h1 a (by simp)) (h2 b (by simp)) h.1
      rw [hab, ih t2 (fun d hd => h1 d (by simp [hd])) (fun d hd => h2 d (by simp [hd])) h.2]

theorem strExt {s t : String} (h : s.data = t.data) : s = t := by
  cases s; cases t; exact congrArg String.mk h

theorem natStr_roundtrip : ∀ n, n ≠ 0 → ofDigitsRev (toDigitsRev (n + 1) n) = n := by
  intro n _
  refine ofDigitsRev_toDigitsRev (n + 1) n ?_
  calc n < 10 ^ n := Nat.lt_pow_self (by norm_num) n
    _ ≤ 10 ^ (n + 1) := Nat.pow_le_pow_right (by norm_num) (Nat.le_succ n)

theorem natStr_inj : ∀ m n, natStr m = natStr n → m = n := by
  have hzero : ∀ k, k ≠ 0 →
      ¬("0" = (⟨((toDigitsRev (k + 1) k).map digitChar10).reverse⟩ : String)) := by
    intro k hk h
    have hd := congrArg String.data h
    have hrev : (toDigitsRev (k + 1) k).map digitChar10 = ['0'] := by
      have := congrArg List.reverse hd
      simpa using this.symm
    have hdl : toDigitsRev (k + 1) k = [0] := by
      refine map_digitChar10_inj _ _ (toDigitsRev_lt10 _ _) (by simp) ?_
      simpa using hrev
    have := natStr_roundtrip k hk
    rw [hdl] at this
    simp [ofDigitsRev] at this
    exact hk this.symm
  intro m n h
  unfold natStr at h
  by_cases hm : m = 0 <;> by_cases hn : n = 0
  · rw [hm, hn]
  · rw [if_pos hm, if_neg hn] at h
    exact absurd h (hzero n hn)
  · rw [if_neg hm, if_pos hn] at h
    exact absurd h.symm (hzero m hm)
  · rw [if_neg hm, if_neg hn] at h
    have hd := congrArg String.data h
    have hmap := List.reverse_injective hd
    have hdl := map_digitChar10_inj _ _ (toDigitsRev_lt10 _ _) (toDigitsRev_lt10 _ _) hmap
    have h1 := natStr_roundtrip m hm
    have h2 := natStr_roundtrip n hn
    rw [hdl] at h1
    rw [h1] at h2
    exact h2

theorem strAppend_left_cancel {s a b : String} (h : s ++ a = s ++ b) : a = b := by
  have hd := congrArg String.data h
  rw [String.data_append, String.data_append] at hd
  exact strExt (List.append_cancel_left hd)

theorem columnCand_inj : Function.Injective columnCand := by
  intro a b h
  exact natStr_inj a b (strAppend_left_cancel h)

theorem suffixCand_inj (name : String) : Function.Injective (suffixCand name) := by
  intro a b h
  exact natStr_inj a b (strAppend_left_cancel h)

/- ### The fresh-name scan terminates on a fresh name -/

theorem scanFree_not_mem (mk : ℕ → String) :
    ∀ f i u, (∃ j, i ≤ j ∧ j < i + f ∧ mk j ∉ u) → mk (scanFree mk f i u) ∉ u := by
  intro f
  induction f with
  | zero =>
    intro i u h
    obtain ⟨j, h1, h2, _⟩ := h
    exact absurd (h1.trans_lt h2) (by omega)
  | succ f ih =>
    intro i u h
    unfold scanFree
    split
    · rename_i hmem
      apply ih
      obtain ⟨j, h1, h2, h3⟩ := h
      refine ⟨j, ?_, by omega, h3⟩
      rcases Nat.eq_or_lt_of_le h1 with heq | hlt
      · exact absurd (heq ▸ hmem) h3
      · omega
    · rename_i hmem
      exact hmem

theorem exists_fresh (mk : ℕ → String) (hinj : Function.Injective mk)
    (u : List String) (i : ℕ) :
    ∃ j, i ≤ j ∧ j < i + (u.length + 1) ∧ mk j ∉ u := by
  by_contra hc
  push_neg at hc
  have hsub : (Finset.Icc i (i + u.length)).image mk ⊆ u.toFinset := by
    intro x hx
    simp only [Finset.mem_image, Finset.mem_Icc] at hx
    obtain ⟨j, ⟨hj1, hj2⟩, rfl⟩ := hx
    exact List.mem_toFinset.mpr (hc j hj1 (by omega))
  have h1 := Finset.card_le_card hsub
  rw [Finset.card_image_of_injective _ hinj, Nat.card_Icc] at h1
  have h2 := u.toFinset_card_le
  omega

theorem scanFree_fresh (mk : ℕ → String) (hinj : Function.Injective mk)
    (u : List String) (i : ℕ) : mk (scanFree mk (u.length + 1) i u) ∉ u :=
  scanFree_not_mem mk (u.length + 1) i u (exists_fresh mk hinj u i)

/- ### `normalize_text`: outputs are normalized, normalized strings are fixed -/

theorem pyIsSpace_blank : pyIsSpace ' ' = true := by decide

theorem ne_blank_of_not_space {c : Char} (h : pyIsSpace c = false) : c ≠ ' ' := by
  intro hc
  rw [hc, pyIsSpace_blank] at h
  cases h

theorem collapseRuns_head : ∀ (t : List Char) (b : Char), ∃ t2, collapseRuns (b :: t) = b :: t2 := by
  intro t
  induction t with
  | nil => intro b; exact ⟨[], rfl⟩
  | cons c t' ih =>
    intro b
    by_cases hbc : (b = ' ' && c = ' ') = true
    · obtain ⟨t2, ht⟩ := ih c
      simp only [Bool.and_eq_true, decide_eq_true_eq] at hbc
      refine ⟨t2, ?_⟩
      have : collapseRuns (b :: c :: t') = collapseRuns (c :: t') := by
        simp [collapseRuns, hbc.1, hbc.2]
      rw [this, ht, hbc.1, hbc.2]
    · exact ⟨collapseRuns (c :: t'), by simp [collapseRuns, hbc]⟩

theorem collapseRuns_chain : ∀ l, noPairBlanks (collapseRuns l) := by
  intro l
  induction l with
  | nil => simp [collapseRuns, noPairBlanks]
  | cons a t ih =>
    cases t with
    | nil => simp [collapseRuns, noPairBlanks]
    | cons b rest =>
      by_cases h : (a = ' ' && b = ' ') = true
      · have : collapseRuns (a :: b :: rest) = collapseRuns (b :: rest) := by
          simp only [Bool.and_eq_true, decide_eq_true_eq] at h
          simp [collapseRuns, h.1, h.2]
        rw [this]
        exact ih
      · have hne : ¬(a = ' ' ∧ b = ' ') := by
          simp only [Bool.and_eq_true, decide_eq_true_eq] at h
          exact h
        have heq : collapseRuns (a :: b :: rest) = a :: collapseRuns (b :: rest) := by
          simp [collapseRuns, h]
        rw [heq]
        obtain ⟨t2, ht2⟩ := collapseRuns_head rest b
        rw [ht2]
        rw [noPairBlanks, List.chain'_cons]
        exact ⟨hne, ht2 ▸ ih⟩

theorem collapseRuns_mem : ∀ l c, c ∈ collapseRuns l → c ∈ l := by
  intro l
  induction l with
  | nil => intro c h; simp [collapseRuns] at h
  | cons a t ih =>
    cases t with
    | nil => intro c h; simpa [collapseRuns] using h
    | cons b rest =>
      intro c h
      by_cases hab : (a = ' ' && b = ' ') = true
      · have : collapseRuns (a :: b :: rest) = collapseRuns (b :: rest) := by
          simp only [Bool.and_eq_true, decide_eq_true_eq] at hab
          simp [collapseRuns, hab.1, hab.2]
        rw [this] at h
        exact List.mem_cons_of_mem a (ih c h)
      · have : collapseRuns (a :: b :: rest) = a :: collapseRuns (b :: rest) := by
          simp [collapseRuns, hab]
        rw [this] at h
        rcases List.mem_cons.mp h with hc | hc
        · exact hc ▸ List.mem_cons_self a _
        · exact List.mem_cons_of_mem a (ih c hc)

theorem dropWhile_pre (p : Char → Bool) : ∀ l : List Char, ∃ pre, l = pre ++ l.dropWhile p := by
  intro l
  induction l with
  | nil => exact ⟨[], rfl⟩
  | cons a t ih =>
    by_cases h : p a = true
    · obtain ⟨pre, hpre⟩ := ih
      exact ⟨a :: pre, by simp [List.dropWhile_cons, h]; exact hpre⟩
    · exact ⟨[], by simp [List.dropWhile_cons, h]⟩

theorem chain'_dropWhile {R : Char → Char → Prop} (p : Char → Bool) (l : List Char)
    (h : List.Chain' R l) : List.Chain' R (l.dropWhile p) := by
  obtain ⟨pre, hpre⟩ := dropWhile_pre p l
  rw [hpre] at h
  exact (List.chain'_append.mp h).2.1

theorem dropWhile_head_not (p : Char → Bool) :
    ∀ l : List Char, ∀ c, (l.dropWhile p).head? = some c → p c = false := by
  intro l
  induction l with
  | nil => intro c h; simp at h
  | cons a t ih =>
    intro c h
    by_cases hp : p a = true
    · rw [List.dropWhile_cons, if_pos hp] at h
      exact ih c h
    · rw [List.dropWhile_cons, if_neg hp] at h
      simp only [List.head?_cons, Option.some.injEq] at h
      rw [← h]
      exact Bool.eq_false_iff.mpr hp

theorem chain'_flip_of_chain' {l : List Char}
    (h : noPairBlanks l) : List.Chain' (flip fun a b : Char => ¬(a = ' ' ∧ b = ' ')) l := by
  refine List.Chain'.imp ?_ h
  intro a b hab hba
  exact hab ⟨hba.2, hba.1⟩

theorem noPairBlanks_reverse {l : List Char} (h : noPairBlanks l) :
    noPairBlanks l.reverse := by
  rw [noPairBlanks, List.chain'_reverse]
  exact chain'_flip_of_chain' h

theorem normalizeText_isNorm (s : String) : isNorm (normalizeText s).data := by
  set l1 := s.data.map (fun c => if pyIsSpace c then ' ' else c) with hl1
  set l2 := collapseRuns l1 with hl2
  set l4 := l2.dropWhile (· = ' ') with hl4
  set l5 := l4.reverse.dropWhile (· = ' ') with hl5
  have hdata : (normalizeText s).data = l5.reverse := rfl
  rw [hdata]
  refine ⟨?_, ?_, ?_, ?_⟩
  · intro c hc hsp
    have h2 : c ∈ l2 := by
      have h1 : c ∈ l4.reverse := (List.dropWhile_sublist _).mem (List.mem_reverse.mp hc)
      exact (List.dropWhile_sublist _).mem (List.mem_reverse.mp h1)
    have h3 := collapseRuns_mem _ c h2
    rw [hl1] at h3
    rcases List.mem_map.mp h3 with ⟨d, _, hd⟩
    by_cases hsd : pyIsSpace d = true
    · rw [if_pos hsd] at hd; exact hd.symm
    · rw [if_neg (by simpa using hsd)] at hd
      rw [← hd] at hsp
      exact absurd hsp (by simpa using hsd)
  · have c2 : noPairBlanks l2 := collapseRuns_chain l1
    have c4 : noPairBlanks l4 := chain'_dropWhile _ _ c2
    have c4r : noPairBlanks l4.reverse := noPairBlanks_reverse c4
    have c5 : noPairBlanks l5 := chain'_dropWhile _ _ c4r
    exact noPairBlanks_reverse c5
  · rw [List.head?_reverse]
    cases hc : l5.getLast? with
    | none => simp
    | some c =>
      obtain ⟨pre, hpre⟩ := dropWhile_pre (· = ' ') l4.reverse
      have hlast : l4.reverse.getLast? = some c := by
        rw [hpre, List.getLast?_append, ← hl5, hc]
        rfl
      rw [List.getLast?_reverse] at hlast
      have hcp := dropWhile_head_not (· = ' ') l2 c hlast
      simp only [decide_eq_false_iff_not] at hcp
      simpa using hcp
  · rw [List.getLast?_reverse]
    cases hch : l5.head? with
    | none => simp
    | some c =>
      have hcp := dropWhile_head_not (· = ' ') l4.reverse c hch
      simp only [decide_eq_false_iff_not] at hcp
      simpa using hcp

theorem collapseRuns_eq_self : ∀ l, noPairBlanks l → collapseRuns l = l := by
  intro l
  induction l with
  | nil => intro _; rfl
  | cons a t ih =>
    cases t with
    | nil => intro _; rfl
    | cons b rest =>
      intro h
      rw [noPairBlanks, List.chain'_cons] at h
      have hab : (a = ' ' && b = ' ') = false := by
        by_cases hx : (a = ' ' && b = ' ') = true
        · simp only [Bool.and_eq_true, decide_eq_true_eq] at hx
          exact absurd hx h.1
        · exact Bool.eq_false_iff.mpr hx
      have : collapseRuns (a :: b :: rest) = a :: collapseRuns (b :: rest) := by
        simp [collapseRuns, hab]
      rw [this, ih h.2]

theorem dropWhile_blank_eq_self {l : List Char} (h : l.head? ≠ some ' ') :
    l.dropWhile (· = ' ') = l := by
  cases l with
  | nil => rfl
  | cons c t =>
    have : c ≠ ' ' := by
      intro hc
      exact h (by rw [hc]; rfl)
    rw [List.dropWhile_cons, if_neg (by simpa using this)]

theorem normalizeText_fix {l : List Char} (h : isNorm l) : normalizeText ⟨l⟩ = ⟨l⟩ := by
  obtain ⟨hsp, hch, hhd, hlast⟩ := h
  have hmap : l.map (fun c => if pyIsSpace c then ' ' else c) = l := by
    have : l.map (fun c => if pyIsSpace c then ' ' else c) = l.map id := by
      refine List.map_congr_left ?_
      intro c hc
      by_cases hs : pyIsSpace c = true
      · rw [if_pos hs, hsp c hc hs]; rfl
      · rw [if_neg (by simpa using hs)]; rfl
    rw [this, List.map_id]
  have hcol : collapseRuns l = l := collapseRuns_eq_self l hch
  have h4 : l.dropWhile (· = ' ') = l := dropWhile_blank_eq_self hhd
  have h5 : l.reverse.dropWhile (· = ' ') = l.reverse := by
    refine dropWhile_blank_eq_self ?_
    rw [List.head?_reverse]
    exact hlast
  show (⟨stripEnds (collapseRuns ((⟨l⟩ : String).data.map fun c =>
    if pyIsSpace c then ' ' else c))⟩ : String) = ⟨l⟩
  have : (⟨l⟩ : String).data = l := rfl
  rw [this, hmap, hcol]
  unfold stripEnds
  rw [h4, h5, List.reverse_reverse]

theorem normalizeText_idem (s : String) : normalizeText (normalizeText s) = normalizeText s :=
  normalizeText_fix (normalizeText_isNorm s)

theorem isNorm_of_fix {s : String} (h : normalizeText s = s) : isNorm s.data := by
  have := normalizeText_isNorm s
  rwa [h] at this

theorem chain'_of_not_blank : ∀ l : List Char, (∀ c ∈ l, c ≠ ' ') → noPairBlanks l := by
  intro l
  induction l with
  | nil => intro _; simp [noPairBlanks]
  | cons a t ih =>
    intro h
    cases t with
    | nil => simp [noPairBlanks]
    | cons b rest =>
      rw [noPairBlanks, List.chain'_cons]
      refine ⟨fun hab => h a (by simp) hab.1, ?_⟩
      exact ih fun c hc => h c (by simp [hc])

theorem isNorm_of_no_space {l : List Char} (h : ∀ c ∈ l, pyIsSpace c = false) : isNorm l := by
  have hnb : ∀ c ∈ l, c ≠ ' ' := fun c hc => ne_blank_of_not_space (h c hc)
  refine ⟨?_, chain'_of_not_blank l hnb, ?_, ?_⟩
  · intro c hc hs
    exact absurd hs (by simp [h c hc])
  · cases hh : l.head? with
    | none => simp
    | some c =>
      have := hnb c (List.mem_of_mem_head? hh)
      simpa using this
  · cases hh : l.getLast? with
    | none => simp
    | some c =>
      have := hnb c (List.mem_of_mem_getLast? hh)
      simpa using this

theorem isNorm_append {a b : List Char} (ha : isNorm a)
    (hb : ∀ c ∈ b, pyIsSpace c = false) (hbne : b ≠ []) : isNorm (a ++ b) := by
  obtain ⟨ha1, ha2, ha3, ha4⟩ := ha
  have hnb : ∀ c ∈ b, c ≠ ' ' := fun c hc => ne_blank_of_not_space (hb c hc)
  refine ⟨?_, ?_, ?_, ?_⟩
  · intro c hc hs
    rcases List.mem_append.mp hc with h | h
    · exact ha1 c h hs
    · exact absurd hs (by simp [hb c h])
  · rw [noPairBlanks, List.chain'_append]
    refine ⟨ha2, chain'_of_not_blank b hnb, ?_⟩
    intro x _ y hy hxy
    exact hnb y (List.mem_of_mem_head? hy) hxy.2
  · cases a with
    | nil =>
      simp only [List.nil_append]
      cases hh : b.head? with
      | none => simp
      | some c => simpa using hnb c (List.mem_of_mem_head? hh)
    | cons a0 t => simpa using ha3
  · rw [List.getLast?_append]
    cases hh : b.getLast? with
    | none => exact absurd (List.getLast?_eq_none_iff.mp hh) hbne
    | some c =>
      have := hnb c (List.mem_of_mem_getLast? hh)
      simpa using this

/- ### `make_unique_columns`: length, freshness, distinctness, idempotence -/

theorem digitChar10_not_space : ∀ d, pyIsSpace (digitChar10 d) = false := by
  intro d
  unfold digitChar10
  split <;> decide

theorem natStr_no_space : ∀ n, ∀ c ∈ (natStr n).data, pyIsSpace c = false := by
  intro n c hc
  unfold natStr at hc
  by_cases h0 : n = 0
  · rw [if_pos h0] at hc
    have : ("0" : String).data = ['0'] := rfl
    rw [this] at hc
    simp only [List.mem_singleton] at hc
    rw [hc]; decide
  · rw [if_neg h0] at hc
    have : c ∈ ((toDigitsRev (n + 1) n).map digitChar10).reverse := hc
    rw [List.mem_reverse] at this
    rcases List.mem_map.mp this with ⟨d, _, rfl⟩
    exact digitChar10_not_space d

theorem columnCand_no_space (k : ℕ) : ∀ c ∈ (columnCand k).data, pyIsSpace c = false := by
  intro c hc
  rw [columnCand, String.data_append] at hc
  rcases List.mem_append.mp hc with h | h
  · have haux : ∀ c ∈ ("Column_" : String).data, pyIsSpace c = false := by decide
    exact haux c h
  · exact natStr_no_space k c h

theorem goodCol_columnCand (k : ℕ) : goodCol (columnCand k) := by
  constructor
  · exact normalizeText_fix (isNorm_of_no_space (columnCand_no_space k))
  · have h : (columnCand k).length = "Column_".length + (natStr k).length :=
      String.length_append _ _
    have h7 : ("Column_" : String).length = 7 := rfl
    rw [h, h7]
    omega

theorem suffixCand_data (name : String) (k : ℕ) :
    (suffixCand name k).data = name.data ++ ('_' :: (natStr k).data) := by
  rw [suffixCand, String.data_append, String.data_append]
  have : ("_" : String).data = ['_'] := rfl
  rw [this, List.append_assoc]
  rfl

theorem goodCol_suffixCand {name : String} (h : goodCol name) (k : ℕ) :
    goodCol (suffixCand name k) := by
  have hb : ∀ c ∈ '_' :: (natStr k).data, pyIsSpace c = false := by
    intro c hc
    rcases List.mem_cons.mp hc with h1 | h1
    · rw [h1]; decide
    · exact natStr_no_space k c h1
  constructor
  · have hnorm : isNorm (suffixCand name k).data := by
      rw [suffixCand_data]
      exact isNorm_append (isNorm_of_fix h.1) hb (by simp)
    calc normalizeText (suffixCand name k)
        = normalizeText ⟨(suffixCand name k).data⟩ := rfl
      _ = ⟨(suffixCand name k).data⟩ := normalizeText_fix hnorm
      _ = suffixCand name k := rfl
  · have hd := congrArg List.length (suffixCand_data name k)
    rw [List.length_append] at hd
    have hlen : (suffixCand name k).length =
        name.data.length + ('_' :: (natStr k).data).length := hd
    have h2' : 2 ≤ name.data.length := h.2
    omega

theorem chooseName_good (u : List String) (col : String) : goodCol (chooseName u col) := by
  dsimp only [chooseName]
  split
  · exact goodCol_columnCand _
  · rename_i h
    push_neg at h
    exact ⟨normalizeText_idem col, by omega⟩

theorem makeUniqueStep_shape (st : List (String × ℕ) × List String) (col : String) :
    ∃ e, (makeUniqueStep st col).2 = st.2 ++ [e] ∧ e ∉ st.2 ∧ goodCol e := by
  have hgood := chooseName_good st.2 col
  dsimp only [makeUniqueStep]
  by_cases hmem : chooseName st.2 col ∈ st.2
  · rw [if_pos hmem]
    exact ⟨_, rfl, scanFree_fresh _ (suffixCand_inj _) st.2 _, goodCol_suffixCand hgood _⟩
  · rw [if_neg hmem]
    exact ⟨_, rfl, hmem, hgood⟩

theorem makeUnique_fold_inv :
    ∀ (l : List String) (st : List (String × ℕ) × List String),
      st.2.Nodup → (∀ x ∈ st.2, goodCol x) →
      (l.foldl makeUniqueStep st).2.Nodup ∧
      (∀ x ∈ (l.foldl makeUniqueStep st).2, goodCol x) ∧
      (l.foldl makeUniqueStep st).2.length = st.2.length + l.length := by
  intro l
  induction l with
  | nil => intro st h1 h2; exact ⟨h1, h2, by simp⟩
  | cons c t ih =>
    intro st h1 h2
    obtain ⟨e, he, hfresh, hgood⟩ := makeUniqueStep_shape st c
    have h1' : (makeUniqueStep st c).2.Nodup := by
      rw [he]
      refine List.Nodup.append h1 (List.nodup_singleton e) ?_
      intro a ha hae
      simp only [List.mem_singleton] at hae
      rw [hae] at ha
      exact hfresh ha
    have h2' : ∀ x ∈ (makeUniqueStep st c).2, goodCol x := by
      rw [he]
      intro x hx
      rcases List.mem_append.mp hx with h | h
      · exact h2 x h
      · simp only [List.mem_singleton] at h
        rw [h]; exact hgood
    have h3' : (makeUniqueStep st c).2.length = st.2.length + 1 := by rw [he]; simp
    obtain ⟨ha, hb, hc2⟩ := ih (makeUniqueStep st c) h1' h2'
    refine ⟨ha, hb, ?_⟩
    rw [List.foldl_cons] at *
    rw [hc2, h3']
    simp only [List.length_cons]
    omega

theorem makeUnique_nodup (l : List String) : (makeUnique l).Nodup :=
  (makeUnique_fold_inv l ([], []) (by simp) (by simp)).1

theorem makeUnique_good (l : List String) : ∀ x ∈ makeUnique l, goodCol x :=
  (makeUnique_fold_inv l ([], []) (by simp) (by simp)).2.1

theorem makeUnique_length (l : List String) : (makeUnique l).length = l.length := by
  have := (makeUnique_fold_inv l ([], []) (by simp) (by simp)).2.2
  simpa [makeUnique] using this

theorem makeUnique_fold_id :
    ∀ (l : List String) (s : List (String × ℕ)) (u : List String),
      (∀ x ∈ l, goodCol x) → (u ++ l).Nodup →
      (l.foldl makeUniqueStep (s, u)).2 = u ++ l := by
  intro l
  induction l with
  | nil => intro s u _ _; simp
  | cons c t ih =>
    intro s u hg hnd
    have hgc := hg c (by simp)
    have hname : chooseName u c = c := by
      dsimp only [chooseName]
      rw [hgc.1]
      rw [if_neg]
      intro h
      rcases h with h | h
      · rw [h] at hgc
        have : (2 : ℕ) ≤ 0 := hgc.2
        omega
      · have := hgc.2
        omega
    have hmem : c ∉ u := by
      intro hc
      have hdisj := (List.nodup_append.mp hnd).2.2
      exact hdisj hc (by simp)
    have hstep : makeUniqueStep (s, u) c = (seenSet s c (seenGet s c), u ++ [c]) := by
      dsimp only [makeUniqueStep]
      rw [hname, if_neg hmem]
    have hnd2 : ((u ++ [c]) ++ t).Nodup := by
      have : u ++ c :: t = (u ++ [c]) ++ t := by simp
      rwa [this] at hnd
    rw [List.foldl_cons, hstep, ih _ _ (fun x hx => hg x (by simp [hx])) hnd2]
    simp

theorem makeUnique_idem (l : List String) : makeUnique (makeUnique l) = makeUnique l := by
  have h := makeUnique_fold_id (makeUnique l) [] [] (makeUnique_good l)
    (by simpa using makeUnique_nodup l)
  simpa [makeUnique] using h

/- ### Bounds of the cell splitter -/

theorem guard_some {c : ℚ} {g : String} {x : ℚ × String}
    (h : (if 0 < c ∧ c ≤ 5 then some (c, g) else none) = some x) :
    0 < x.1 ∧ x.1 ≤ 5 := by
  split at h
  · rename_i hc
    injection h with h'
    rw [← h']
    exact hc
  · exact absurd h (by simp)

theorem parse_stage4 (o4 : Option (List Char)) :
    (match o4 with
     | some g => ((0 : ℚ), pyUpperStr ⟨g⟩)
     | none => ((0 : ℚ), "")).1 = 0 := by
  cases o4 <;> rfl

theorem parse_stage3 (o3 : Option ℚ) (o4 : Option (List Char)) :
    (match (match o3 with
            | some c => if 0 < c ∧ c ≤ 5 then some (c, "") else none
            | none => none : Option (ℚ × String)) with
     | some r => r
     | none =>
       match o4 with
       | some g => ((0 : ℚ), pyUpperStr ⟨g⟩)
       | none => ((0 : ℚ), "")).1 = 0 ∨
    (0 < (match (match o3 with
            | some c => if 0 < c ∧ c ≤ 5 then some (c, "") else none
            | none => none : Option (ℚ × String)) with
     | some r => r
     | none =>
       match o4 with
       | some g => ((0 : ℚ), pyUpperStr ⟨g⟩)
       | none => ((0 : ℚ), "")).1 ∧
     (match (match o3 with
            | some c => if 0 < c ∧ c ≤ 5 then some (c, "") else none
            | none => none : Option (ℚ × String)) with
     | some r => r
     | none =>
       match o4 with
       | some g => ((0 : ℚ), pyUpperStr ⟨g⟩)
       | none => ((0 : ℚ), "")).1 ≤ 5) := by
  cases o3 with
  | none =>
    dsimp only
    left
    exact parse_stage4 o4
  | some c =>
    dsimp only
    by_cases hc : 0 < c ∧ c ≤ 5
    · rw [if_pos hc]
      dsimp only
      right
      exact hc
    · rw [if_neg hc]
      dsimp only
      left
      exact parse_stage4 o4

theorem parse_credit_cases (s : String) :
    (parseCreditAndGpa s).1 = 0 ∨
      (0 < (parseCreditAndGpa s).1 ∧ (parseCreditAndGpa s).1 ≤ 5) := by
  unfold parseCreditAndGpa
  dsimp only
  split
  · left; rfl
  · rcases h1 : matchGpaCredit (normalizeText s).data with _ | gc
    · dsimp only
      rcases h2 : matchCreditGpa (normalizeText s).data with _ | cg
      · dsimp only
        exact parse_stage3 (searchNumber (normalizeText s).data)
          (searchGpa (normalizeText s).data)
      · dsimp only
        by_cases hc2 : 0 < cg.1 ∧ cg.1 ≤ 5
        · rw [if_pos hc2]
          dsimp only
          right
          exact hc2
        · rw [if_neg hc2]
          dsimp only
          exact parse_stage3 (searchNumber (normalizeText s).data)
            (searchGpa (normalizeText s).data)
    · dsimp only
      by_cases hc1 : 0 < gc.2 ∧ gc.2 ≤ 5
      · rw [if_pos hc1]
        dsimp only
        right
        exact hc1
      · rw [if_neg hc1]
        dsimp only
        rcases h2 : matchCreditGpa (normalizeText s).data with _ | cg
        · dsimp only
          exact parse_stage3 (searchNumber (normalizeText s).data)
            (searchGpa (normalizeText s).data)
        · dsimp only
          by_cases hc2 : 0 < cg.1 ∧ cg.1 ≤ 5
          · rw [if_pos hc2]
            dsimp only
            right
            exact hc2
          · rw [if_neg hc2]
            dsimp only
            exact parse_stage3 (searchNumber (normalizeText s).data)
              (searchGpa (normalizeText s).data)

theorem parse_credit_bounds (s : String) :
    0 ≤ (parseCreditAndGpa s).1 ∧ (parseCreditAndGpa s).1 ≤ 5 := by
  rcases parse_credit_cases s with h | h
  · rw [h]; exact ⟨le_refl 0, by norm_num⟩
  · exact ⟨le_of_lt h.1, h.2⟩

/- ### Row-level facts of the aggregator -/

/- ### Row-level facts of the aggregator -/

theorem courseNameOf_cases (cols : List String) (si : ℕ) (row : List String) :
    courseNameOf cols si row = "" ∨
      ∃ i, courseNameOf cols si row = normalizeText (row.getD i "") := by
  unfold courseNameOf
  dsimp only
  repeat' split
  all_goals first
    | (left; rfl)
    | (right; exact ⟨si, rfl⟩)
    | (right; exact ⟨si - 1, rfl⟩)
    | (right; exact ⟨si + 1, rfl⟩)

theorem ite_clamp_bounds (c2 : ℚ) (h2 : 0 ≤ c2) :
    0 ≤ (if 5 < c2 then (0 : ℚ) else c2) ∧ (if 5 < c2 then (0 : ℚ) else c2) ≤ 5 := by
  split
  · norm_num
  · rename_i hlt
    exact ⟨h2, le_of_not_lt hlt⟩

theorem extractCredit_bounds (ci : ℕ) (gi : Option ℕ) (row : List String) :
    0 ≤ extractCredit ci gi row ∧ extractCredit ci gi row ≤ 5 := by
  unfold extractCredit
  dsimp only
  apply ite_clamp_bounds
  rcases gi with _ | g
  · exact (parse_credit_bounds _).1
  · dsimp only
    split
    · exact (parse_credit_bounds _).1
    · exact (parse_credit_bounds _).1

theorem processRow_eq_recOf {cols : List String} {yi smi si ci : ℕ} {gi : Option ℕ}
    {dfi : ℕ} {row : List String} {b : Bool} {r : CourseRec}
    (h : processRow cols yi smi si ci gi dfi row = some (b, r)) :
    r = recOf cols yi smi si ci gi dfi row := by
  unfold processRow at h
  split at h
  · exact absurd h (by simp)
  · split at h
    · exact absurd h (by simp)
    · split at h
      · injection h with h'
        injection h' with hb hr
        exact hr.symm
      · split at h
        · injection h with h'
          injection h' with hb hr
          exact hr.symm
        · exact absurd h (by simp)

theorem processRow_credit_bounds {cols : List String} {yi smi si ci : ℕ} {gi : Option ℕ}
    {dfi : ℕ} {row : List String} {b : Bool} {r : CourseRec}
    (h : processRow cols yi smi si ci gi dfi row = some (b, r)) :
    0 ≤ r.credit ∧ r.credit ≤ 5 := by
  rw [processRow_eq_recOf h]
  exact extractCredit_bounds ci gi row

theorem processRow_name {cols : List String} {yi smi si ci : ℕ} {gi : Option ℕ}
    {dfi : ℕ} {row : List String} {b : Bool} {r : CourseRec}
    (h : processRow cols yi smi si ci gi dfi row = some (b, r)) :
    r.courseName = "未知科目" ∨ ∃ i, r.courseName = normalizeText (row.getD i "") := by
  rw [processRow_eq_recOf h]
  have hcn : (recOf cols yi smi si ci gi dfi row).courseName = extractName cols si row := rfl
  rw [hcn]
  unfold extractName
  split
  · left; rfl
  · rename_i hne
    rcases courseNameOf_cases cols si row with hc | ⟨i, hc⟩
    · exact absurd hc hne
    · right; exact ⟨i, hc⟩

theorem sumCredits_append_single (l : List CourseRec) (r : CourseRec) :
    sumCredits (l ++ [r]) = sumCredits l + r.credit := by
  simp [sumCredits]

theorem rowStep_sum {cols : List String} {yi smi si ci : ℕ} {gi : Option ℕ} {dfi : ℕ}
    (st : ℚ × List CourseRec × List CourseRec) (row : List String)
    (h : st.1 = sumCredits st.2.1) :
    (rowStep cols yi smi si ci gi dfi st row).1 =
      sumCredits (rowStep cols yi smi si ci gi dfi st row).2.1 := by
  unfold rowStep
  rcases hp : processRow cols yi smi si ci gi dfi row with _ | fr
  · exact h
  · dsimp only
    split
    · exact h
    · dsimp only
      rw [sumCredits_append_single]
      have hb := (processRow_credit_bounds hp).1
      split
      · rw [h]
      · rename_i hnot
        have hz : fr.2.credit = 0 := le_antisymm (not_lt.mp hnot) hb
        rw [h, hz, add_zero]

theorem rowStep_mem {cols : List String} {yi smi si ci : ℕ} {gi : Option ℕ} {dfi : ℕ}
    (st : ℚ × List CourseRec × List CourseRec) (row : List String) (r : CourseRec)
    (hr : r ∈ (rowStep cols yi smi si ci gi dfi st row).2.1 ++
      (rowStep cols yi smi si ci gi dfi st row).2.2) :
    r ∈ st.2.1 ++ st.2.2 ∨ ∃ b, processRow cols yi smi si ci gi dfi row = some (b, r) := by
  unfold rowStep at hr
  rcases hp : processRow cols yi smi si ci gi dfi row with _ | fr
  · rw [hp] at hr
    left
    exact hr
  · rw [hp] at hr
    dsimp only at hr
    split at hr
    · rcases List.mem_append.mp hr with h1 | h1
      · exact Or.inl (List.mem_append_left _ h1)
      · rcases List.mem_append.mp h1 with h2 | h2
        · exact Or.inl (List.mem_append_right _ h2)
        · simp only [List.mem_singleton] at h2
          subst h2
          exact Or.inr ⟨fr.1, rfl⟩
    · rcases List.mem_append.mp hr with h1 | h1
      · rcases List.mem_append.mp h1 with h2 | h2
        · exact Or.inl (List.mem_append_left _ h2)
        · simp only [List.mem_singleton] at h2
          subst h2
          exact Or.inr ⟨fr.1, rfl⟩
      · exact Or.inl (List.mem_append_right _ h1)

theorem rowsFold_sum {cols : List String} {yi smi si ci : ℕ} {gi : Option ℕ} {dfi : ℕ} :
    ∀ (rows : List (List String)) (st : ℚ × List CourseRec × List CourseRec),
      st.1 = sumCredits st.2.1 →
      (rows.foldl (rowStep cols yi smi si ci gi dfi) st).1 =
        sumCredits (rows.foldl (rowStep cols yi smi si ci gi dfi) st).2.1 := by
  intro rows
  induction rows with
  | nil => intro st h; exact h
  | cons row rest ih =>
    intro st h
    rw [List.foldl_cons]
    exact ih _ (rowStep_sum st row h)

theorem rowsFold_mem {cols : List String} {yi smi si ci : ℕ} {gi : Option ℕ} {dfi : ℕ} :
    ∀ (rows : List (List String)) (st : ℚ × List CourseRec × List CourseRec) (r : CourseRec),
      r ∈ (rows.foldl (rowStep cols yi smi si ci gi dfi) st).2.1 ++
        (rows.foldl (rowStep cols yi smi si ci gi dfi) st).2.2 →
      r ∈ st.2.1 ++ st.2.2 ∨
        ∃ row ∈ rows, ∃ b, processRow cols yi smi si ci gi dfi row = some (b, r) := by
  intro rows
  induction rows with
  | nil => intro st r hr; left; exact hr
  | cons row rest ih =>
    intro st r hr
    rw [List.foldl_cons] at hr
    rcases ih _ r hr with h1 | ⟨row2, hrow2, b, hb⟩
    · rcases rowStep_mem st row r h1 with h2 | ⟨b, hb⟩
      · left; exact h2
      · right; exact ⟨row, by simp, b, hb⟩
    · right; exact ⟨row2, by simp [hrow2], b, hb⟩

/- ### Table-level and list-level facts of the aggregator -/

theorem procDF_sum (dfi : ℕ) (df0 : DataF) (st : ℚ × List CourseRec × List CourseRec)
    (h : st.1 = sumCredits st.2.1) :
    (procDF dfi df0 st).1 = sumCredits (procDF dfi df0 st).2.1 := by
  unfold procDF
  split
  · exact h
  · dsimp only
    rcases (findCols ⟨makeUnique df0.cols, df0.rows⟩).cred with _ | ci <;>
      rcases (findCols ⟨makeUnique df0.cols, df0.rows⟩).subj with _ | si <;>
      rcases (findCols ⟨makeUnique df0.cols, df0.rows⟩).year with _ | yi <;>
      rcases (findCols ⟨makeUnique df0.cols, df0.rows⟩).sem with _ | smi <;>
      first
        | exact h
        | exact rowsFold_sum _ _ h

theorem procDF_mem (dfi : ℕ) (df0 : DataF) (st : ℚ × List CourseRec × List CourseRec)
    (r : CourseRec)
    (hr : r ∈ (procDF dfi df0 st).2.1 ++ (procDF dfi df0 st).2.2) :
    r ∈ st.2.1 ++ st.2.2 ∨
      ∃ row ∈ df0.rows, ∃ cols yi smi si ci gi b,
        processRow cols yi smi si ci gi dfi row = some (b, r) := by
  unfold procDF at hr
  split at hr
  · left; exact hr
  · dsimp only at hr
    revert hr
    rcases (findCols ⟨makeUnique df0.cols, df0.rows⟩).cred with _ | ci <;>
      rcases (findCols ⟨makeUnique df0.cols, df0.rows⟩).subj with _ | si <;>
      rcases (findCols ⟨makeUnique df0.cols, df0.rows⟩).year with _ | yi <;>
      rcases (findCols ⟨makeUnique df0.cols, df0.rows⟩).sem with _ | smi <;>
      intro hr <;>
      first
        | (left; exact hr)
        | (rcases rowsFold_mem _ _ r hr with h1 | ⟨row, hrow, b, hb⟩
           · left; exact h1
           · right; exact ⟨row, hrow, _, _, _, _, _, _, _, hb⟩)

theorem enumFrom_mem_snd {α : Type} :
    ∀ (l : List α) (n : ℕ) (p : ℕ × α), p ∈ List.enumFrom n l → p.2 ∈ l := by
  intro l
  induction l with
  | nil => intro n p hp; simp at hp
  | cons a t ih =>
    intro n p hp
    rcases List.mem_cons.mp hp with h | h
    · rw [h]
      simp
    · exact List.mem_cons_of_mem a (ih (n + 1) p h)

theorem calcFold_sum :
    ∀ (ps : List (ℕ × DataF)) (st : ℚ × List CourseRec × List CourseRec),
      st.1 = sumCredits st.2.1 →
      (ps.foldl (fun st p => procDF p.1 p.2 st) st).1 =
        sumCredits (ps.foldl (fun st p => procDF p.1 p.2 st) st).2.1 := by
  intro ps
  induction ps with
  | nil => intro st h; exact h
  | cons p rest ih =>
    intro st h
    rw [List.foldl_cons]
    exact ih _ (procDF_sum p.1 p.2 st h)

theorem calcFold_mem :
    ∀ (ps : List (ℕ × DataF)) (st : ℚ × List CourseRec × List CourseRec) (r : CourseRec),
      r ∈ (ps.foldl (fun st p => procDF p.1 p.2 st) st).2.1 ++
        (ps.foldl (fun st p => procDF p.1 p.2 st) st).2.2 →
      r ∈ st.2.1 ++ st.2.2 ∨
        ∃ p ∈ ps, ∃ row ∈ p.2.rows, ∃ cols yi smi si ci gi b,
          processRow cols yi smi si ci gi p.1 row = some (b, r) := by
  intro ps
  induction ps with
  | nil => intro st r hr; left; exact hr
  | cons p rest ih =>
    intro st r hr
    rw [List.foldl_cons] at hr
    rcases ih _ r hr with h1 | ⟨p2, hp2, rest2⟩
    · rcases procDF_mem p.1 p.2 st r h1 with h2 | ⟨row, hrow, rest3⟩
      · left; exact h2
      · right; exact ⟨p, by simp, row, hrow, rest3⟩
    · right; exact ⟨p2, by simp [hp2], rest2⟩

theorem calc_sum (dfs : List DataF) :
    (calculateTotalCredits dfs).1 = sumCredits (calculateTotalCredits dfs).2.1 := by
  unfold calculateTotalCredits
  exact calcFold_sum _ _ (by simp [sumCredits])

theorem calc_mem (dfs : List DataF) (r : CourseRec)
    (hr : r ∈ (calculateTotalCredits dfs).2.1 ++ (calculateTotalCredits dfs).2.2) :
    ∃ df ∈ dfs, ∃ row ∈ df.rows, ∃ cols yi smi si ci gi dfi b,
      processRow cols yi smi si ci gi dfi row = some (b, r) := by
  unfold calculateTotalCredits at hr
  rcases calcFold_mem _ _ r hr with h | ⟨p, hp, row, hrow, cols, yi, smi, si, ci, gi, b, hb⟩
  · simp at h
  · have hdf : p.2 ∈ dfs := enumFrom_mem_snd dfs 0 p hp
    exact ⟨p.2, hdf, row, hrow, cols, yi, smi, si, ci, gi, p.1, b, hb⟩

theorem calc_credit_bounds (dfs : List DataF) (r : CourseRec)
    (hr : r ∈ (calculateTotalCredits dfs).2.1 ++ (calculateTotalCredits dfs).2.2) :
    0 ≤ r.credit ∧ r.credit ≤ 5 := by
  rcases calc_mem dfs r hr with ⟨df, _, row, _, cols, yi, smi, si, ci, gi, dfi, b, hb⟩
  exact processRow_credit_bounds hb

/- ### The column mutation of `calculate_total_credits` is idempotent -/

theorem procDF_update (dfi : ℕ) (df : DataF) (st : ℚ × List CourseRec × List CourseRec) :
    procDF dfi (updateDF df) st = procDF dfi df st := by
  unfold updateDF
  split
  · rfl
  · show procDF dfi ⟨makeUnique df.cols, df.rows⟩ st = procDF dfi df st
    unfold procDF
    try dsimp only
    rw [makeUnique_length, makeUnique_idem]

theorem calc_update (dfs : List DataF) :
    calculateTotalCredits (updateDFs dfs) = calculateTotalCredits dfs := by
  unfold calculateTotalCredits updateDFs
  rw [show (dfs.map updateDF).enum = dfs.enum.map (Prod.map id updateDF) from List.enum_map dfs updateDF]
  rw [List.foldl_map]
  congr 1
  funext st p
  dsimp only [Prod.map, id]
  exact procDF_update p.1 p.2 st

theorem updateDF_idem (df : DataF) : updateDF (updateDF df) = updateDF df := by
  by_cases h : (df.rows.isEmpty || decide (df.cols.length < 3)) = true
  · simp only [updateDF, if_pos h]
  · simp only [updateDF, if_neg h]
    try dsimp only
    rw [makeUnique_length, if_neg h, makeUnique_idem]

theorem updateDFs_idem (dfs : List DataF) : updateDFs (updateDFs dfs) = updateDFs dfs := by
  unfold updateDFs
  rw [List.map_map]
  exact List.map_congr_left fun df _ => updateDF_idem df

/- ### The claims -/

/-- C1: for every input cell string the splitter never returns a credit
outside (0, 10] — every extracted credit outside that range comes back as
0.0 — and across the aggregation pipeline every record's credit is
non-negative and below the sanity ceiling 10. -/
theorem c1_credit_bounds :
    (∀ s : String, (parseCreditAndGpa s).1 = 0 ∨
      (0 < (parseCreditAndGpa s).1 ∧ (parseCreditAndGpa s).1 ≤ 10)) ∧
    (∀ (dfs : List DataF) (r : CourseRec),
      r ∈ (calculateTotalCredits dfs).2.1 ++ (calculateTotalCredits dfs).2.2 →
      0 ≤ r.credit ∧ r.credit ≤ 10) := by
  constructor
  · intro s
    rcases parse_credit_cases s with h | h
    · left; exact h
    · right; exact ⟨h.1, le_trans h.2 (by norm_num)⟩
  · intro dfs r hr
    have h := calc_credit_bounds dfs r hr
    exact ⟨h.1, le_trans h.2 (by norm_num)⟩

unseal Rat.add in
theorem c1_credit_bounds_witness :
    ((parseCreditAndGpa "A 12").1 = 0 ∨
      (0 < (parseCreditAndGpa "A 12").1 ∧ (parseCreditAndGpa "A 12").1 ≤ 10)) ∧
    (0 ≤ (⟨"111", "1", "未知科目", 3, "A", 1⟩ : CourseRec).credit ∧
      (⟨"111", "1", "未知科目", 3, "A", 1⟩ : CourseRec).credit ≤ 10) :=
  ⟨c1_credit_bounds.1 "A 12",
   c1_credit_bounds.2 [dfC4] ⟨"111", "1", "未知科目", 3, "A", 1⟩ (by decide)⟩

/-- C2, counterexample: `dfC2` resolves CourseName, Credits and Grade by
header keywords, yet `is_grades_table` rejects it, because the year and
semester roles are missing — so acceptance is not equivalent to
CourseName plus one of Credits/Grade. -/
theorem c2_counterexample :
    hasKeywordCol subjectKeywordsIGT (makeUnique dfC2.cols) = true ∧
    hasKeywordCol creditKeywordsIGT (makeUnique dfC2.cols) = true ∧
    hasKeywordCol gpaKeywordsIGT (makeUnique dfC2.cols) = true ∧
    isGradesTable dfC2 = false := by decide

/-- C2, amended: a table is accepted iff it is non-degenerate (some rows,
at least 3 columns) and either the header phase resolves CourseName, one
of Credits/Grade, AcademicYear and Semester, or the content phase detects
all four of subject-, credit/grade-, year- and semester-like columns.
AcademicYear and Semester are mandatory, not optional. -/
theorem c2_accept_amended (df : DataF) :
    isGradesTable df = true ↔
      (df.rows ≠ [] ∧ 3 ≤ df.cols.length ∧
        (headerPathOK (makeUnique df.cols) = true ∨
         contentPathOK ⟨makeUnique df.cols, df.rows⟩ = true)) := by
  unfold isGradesTable
  split
  · rename_i h
    simp only [Bool.or_eq_true, List.isEmpty_iff, decide_eq_true_eq] at h
    constructor
    · intro hf; exact absurd hf (by simp)
    · rintro ⟨h1, h2, _⟩
      rcases h with h | h
      · exact absurd h h1
      · omega
  · rename_i h
    simp only [Bool.or_eq_true, List.isEmpty_iff, decide_eq_true_eq] at h
    push_neg at h
    dsimp only
    split
    · rename_i hh
      constructor
      · intro _; exact ⟨h.1, by omega, Or.inl hh⟩
      · intro _; rfl
    · rename_i hh
      constructor
      · intro hc; exact ⟨h.1, by omega, Or.inr hc⟩
      · rintro ⟨_, _, hpath | hpath⟩
        · exact absurd hpath hh
        · exact hpath

/-- C3: over the spec's GradeMapping, the aggregator's failing test holds
exactly for tokens mapping below the 1.7 floor; pass/exempt markers are
never failing; and failed records contribute nothing to the total (the
total is the sum of the passed records' credits alone). -/
theorem c3_failing_iff :
    (∀ p ∈ gradeMappingSpec, (isFailingGpa p.1 = true ↔ p.2 < mkRat 17 10)) ∧
    (∀ m ∈ passMarkers, isFailingGpa m = false) ∧
    (∀ dfs : List DataF,
      (calculateTotalCredits dfs).1 = sumCredits (calculateTotalCredits dfs).2.1) := by
  refine ⟨?_, ?_, calc_sum⟩
  · decide
  · decide

theorem c3_failing_iff_witness :
    (("D+", mkRat 13 10) ∈ gradeMappingSpec) ∧
    (isFailingGpa "D+" = true ↔ mkRat 13 10 < mkRat 17 10) ∧
    isFailingGpa "通過" = false :=
  ⟨by decide, c3_failing_iff.1 ("D+", mkRat 13 10) (by decide),
   c3_failing_iff.2.1 "通過" (by decide)⟩

unseal Rat.add in
/-- C4, counterexample: on the claim's new-record row followed by a
continuation row, the aggregator emits a single record whose course name
is the 未知科目 sentinel — not the concatenation
"Intro to Computing (continued)" — because rows are processed
independently and no merging of continuation rows exists. -/
theorem c4_counterexample :
    calculateTotalCredits [dfC4] =
      (3, [⟨"111", "1", "未知科目", 3, "A", 1⟩], []) ∧
    ("未知科目" : String) ≠ "Intro to Computing (continued)" := by
  constructor
  · decide
  · decide

/-- C4, amended: the aggregator never concatenates text across rows —
every emitted record's course name is either the 未知科目 sentinel or the
normalized text of a single cell of a single physical row. -/
theorem c4_no_merge_amended (dfs : List DataF) (r : CourseRec)
    (hr : r ∈ (calculateTotalCredits dfs).2.1 ++ (calculateTotalCredits dfs).2.2) :
    r.courseName = "未知科目" ∨
      ∃ df ∈ dfs, ∃ row ∈ df.rows, ∃ i, r.courseName = normalizeText (row.getD i "") := by
  rcases calc_mem dfs r hr with ⟨df, hdf, row, hrow, cols, yi, smi, si, ci, gi, dfi, b, hb⟩
  rcases processRow_name hb with h | ⟨i, h⟩
  · left; exact h
  · right; exact ⟨df, hdf, row, hrow, i, h⟩

unseal Rat.add in
theorem c4_no_merge_amended_witness :
    (⟨"111", "1", "未知科目", 3, "A", 1⟩ : CourseRec).courseName = "未知科目" ∨
      ∃ df ∈ [dfC4], ∃ row ∈ df.rows, ∃ i,
        (⟨"111", "1", "未知科目", 3, "A", 1⟩ : CourseRec).courseName =
          normalizeText (row.getD i "") :=
  c4_no_merge_amended [dfC4] ⟨"111", "1", "未知科目", 3, "A", 1⟩ (by decide)

/-- C5: the two composite cell patterns are order-independent on the
claim's example — both "A 3" and "3 A" split to (3.0, "A"). -/
theorem c5_split_order_independent :
    parseCreditAndGpa "A 3" = (3, "A") ∧ parseCreditAndGpa "3 A" = (3, "A") := by
  constructor
  · decide
  · decide

/-- C6: a cell whose normalized text equals a pass/exempt marker
(case-insensitively) is answered first, before any pattern matching, as
credit 0.0 with the marker text as grade; in particular 抵免. -/
theorem c6_marker_first :
    (∀ s : String, pyLowerStr (normalizeText s) ∈ passMarkers →
      parseCreditAndGpa s = (0, normalizeText s)) ∧
    parseCreditAndGpa "抵免" = (0, "抵免") := by
  constructor
  · intro s h
    unfold parseCreditAndGpa
    dsimp only
    rw [if_pos h]
  · decide

theorem c6_marker_first_witness :
    pyLowerStr (normalizeText "抵免") ∈ passMarkers ∧
    parseCreditAndGpa "抵免" = (0, normalizeText "抵免") :=
  ⟨by decide, c6_marker_first.1 "抵免" (by decide)⟩

/-- C7: running `calculate_total_credits` a second time on the same
(column-rewritten) tables returns identical totals and course lists, and
the column rewriting itself is idempotent — the only mutation of the
input is `make_unique_columns`, which is a fixed point on its own output. -/
theorem c7_aggregate_idempotent (dfs : List DataF) :
    calculateTotalCredits (updateDFs dfs) = calculateTotalCredits dfs ∧
    updateDFs (updateDFs dfs) = updateDFs dfs :=
  ⟨calc_update dfs, updateDFs_idem dfs⟩

unseal Rat.sub in
/-- C8, counterexample: when the total (130) exceeds the threshold (128)
the displayed figure is the surplus 2.00 with the exceeded message, not a
zero remaining-credits figure, so the reported number is not
max(0, threshold - total). -/
theorem c8_counterexample :
    (128 : ℚ) ≤ 130 ∧ creditReport 128 130 = (CreditMsg.surplus, 2) ∧ (2 : ℚ) ≠ 0 := by
  refine ⟨by norm_num, ?_, by norm_num⟩
  decide

/-- C8, amended: while the total does not exceed the threshold the
reported figure is exactly max(0, threshold - total); once the total
exceeds the threshold the code reports the surplus total - threshold
under the exceeded message instead of a zero remaining figure. -/
theorem c8_remaining_amended (target total : ℚ) :
    (total ≤ target → (creditReport target total).2 = max 0 (target - total)) ∧
    (target < total → creditReport target total = (CreditMsg.surplus, total - target)) := by
  constructor
  · intro h
    unfold creditReport
    dsimp only
    by_cases h0 : 0 < target - total
    · rw [if_pos h0]
      rw [max_eq_right (le_of_lt h0)]
    · rw [if_neg h0]
      have heq : target - total = 0 := le_antisymm (not_lt.mp h0) (by linarith)
      rw [if_neg (by rw [heq]; exact lt_irrefl 0)]
      rw [heq, max_self]
  · intro h
    unfold creditReport
    dsimp only
    have h1 : ¬(0 < target - total) := by linarith
    have h2 : target - total < 0 := by linarith
    rw [if_neg h1, if_pos h2]
    have h3 : -(target - total) = total - target := by ring
    rw [h3]

theorem c8_remaining_amended_witness :
    ((125 : ℚ) ≤ 128 ∧ (creditReport 128 125).2 = max 0 ((128 : ℚ) - 125)) ∧
    ((128 : ℚ) < 130 ∧ creditReport 128 130 = (CreditMsg.surplus, (130 : ℚ) - 128)) :=
  ⟨⟨by norm_num, (c8_remaining_amended 128 125).1 (by norm_num)⟩,
   ⟨by norm_num, (c8_remaining_amended 128 130).2 (by norm_num)⟩⟩

/-- C9: the returned total equals the sum of the 學分 fields of the passed
records, is never negative, and every returned record's credit lies in
[0, 5]. -/
theorem c9_total_sum (dfs : List DataF) :
    (calculateTotalCredits dfs).1 = sumCredits (calculateTotalCredits dfs).2.1 ∧
    0 ≤ (calculateTotalCredits dfs).1 ∧
    ∀ r ∈ (calculateTotalCredits dfs).2.1 ++ (calculateTotalCredits dfs).2.2,
      0 ≤ r.credit ∧ r.credit ≤ 5 := by
  refine ⟨calc_sum dfs, ?_, fun r hr => calc_credit_bounds dfs r hr⟩
  rw [calc_sum dfs]
  unfold sumCredits
  apply List.sum_nonneg
  intro x hx
  rcases List.mem_map.mp hx with ⟨r, hr, rfl⟩
  exact (calc_credit_bounds dfs r (List.mem_append_left _ hr)).1

unseal Rat.add in
theorem c9_total_sum_witness :
    (calculateTotalCredits [dfE2E]).1 = sumCredits (calculateTotalCredits [dfE2E]).2.1 ∧
    0 ≤ (calculateTotalCredits [dfE2E]).1 ∧
    (0 ≤ (⟨"111", "1", "微積分", 3, "", 1⟩ : CourseRec).credit ∧
      (⟨"111", "1", "微積分", 3, "", 1⟩ : CourseRec).credit ≤ 5) :=
  ⟨(c9_total_sum [dfE2E]).1, (c9_total_sum [dfE2E]).2.1,
   (c9_total_sum [dfE2E]).2.2 ⟨"111", "1", "微積分", 3, "", 1⟩ (by decide)⟩

/-- C10: `make_unique_columns` preserves the length of the column list and
returns pairwise-distinct, non-empty names, whatever mixture of
duplicates and empty entries it receives. -/
theorem c10_unique_columns (l : List String) :
    (makeUnique l).length = l.length ∧
    List.Pairwise (fun a b => a ≠ b) (makeUnique l) ∧
    ∀ x ∈ makeUnique l, x ≠ "" := by
  refine ⟨makeUnique_length l, makeUnique_nodup l, ?_⟩
  intro x hx he
  have h2 := (makeUnique_good l x hx).2
  rw [he] at h2
  exact absurd h2 (by decide)

theorem c10_unique_columns_witness :
    (makeUnique ["ab", "ab"]).length = 2 ∧
    List.Pairwise (fun a b => a ≠ b) (makeUnique ["ab", "ab"]) ∧
    ("ab_1" : String) ≠ "" :=
  ⟨(c10_unique_columns ["ab", "ab"]).1, (c10_unique_columns ["ab", "ab"]).2.1,
   (c10_unique_columns ["ab", "ab"]).2.2 "ab_1" (by decide)⟩

/- ### Sanity checks -/

example : parseCreditAndGpa "A 3" = (3, "A") := by decide
example : parseCreditAndGpa "3 A" = (3, "A") := by decide
example : parseCreditAndGpa "抵免" = (0, "抵免") := by decide
example : parseCreditAndGpa "A 12" = (0, "A") := by decide
example : parseCreditAndGpa "2.5 b-" = (mkRat 5 2, "B-") := by decide
example : parseCreditAndGpa "  x 7 " = (0, "") := by decide
example : makeUnique ["ab", "ab"] = ["ab", "ab_1"] := by decide
example : makeUnique ["x", "y"] = ["Column_1", "Column_2"] := by decide
example : makeUnique ["ab", "ab", "ab_1"] = ["ab", "ab_1", "ab_1_1"] := by decide
example : natStr 210 = "210" := by decide
example : isGradesTable ⟨["科目名稱", "學分", "成績"], [["微積分", "3", "A"]]⟩ = false := by decide
example : isGradesTable ⟨["學年", "學期", "科目名稱", "學分"], [["111", "1", "微積分", "3"]]⟩ = true := by decide
